import Mathlib

/-!
Verification development for the pyprob `diagnostics` module
(`src/pyprob/diagnostics.py`).

Modelling conventions:
* numpy float values are modelled by `ℚ`; a float that is `nan` is modelled
  by `none : Option ℚ` at the places where the code explicitly introduces or
  tests for `np.nan`; nan-propagating numpy reductions (`np.sum`, `np.mean`,
  `np.var`) are modelled by `Option ℚ` arithmetic in which `none` is absorbing.
  Rational division by zero is `0` in this model, whereas numpy float division
  by zero gives inf or nan; none of the theorems below exercises that case.
* `np.sqrt` is modelled by `Real.sqrt`, so the handful of definitions that
  apply it live in `ℝ` and are marked `noncomputable`; everything up to the
  square root is executable rational arithmetic.
* Python exceptions are modelled by `Except PyErr`; raising propagates in the
  `Except` monad exactly as an uncaught Python exception unwinds.
-/

namespace Pyprob

/-- Kinds of Python exceptions the diagnostics module can raise. -/
inductive PyErr
  | typeError
  | valueError
  | runtimeError
  | indexError
  | keyError
  | attributeError
deriving DecidableEq

/-- Arithmetic mean of a list of rationals, `np.mean` on a float vector.
For the empty list this is `0/0 = 0`; the nan-aware wrapper `omean` handles
the empty case the way numpy does. -/
def mean (l : List ℚ) : ℚ := l.sum / l.length

/-- Population variance (`np.var` with its default `ddof=0`): the mean of the
squared deviations from the mean. -/
def varP (l : List ℚ) : ℚ := mean (l.map (fun a => (a - mean l) ^ 2))

/-- Lift a binary rational operation to nan-propagating `Option ℚ` values. -/
def o2 (f : ℚ → ℚ → ℚ) : Option ℚ → Option ℚ → Option ℚ
  | some a, some b => some (f a b)
  | _, _ => none

/-- Nan-propagating `np.sum`: the sum of a float vector, `nan` as soon as one
entry is `nan`; the empty sum is `0`. -/
def osum (l : List (Option ℚ)) : Option ℚ := l.foldr (o2 (· + ·)) (some 0)

/-- Nan-propagating `np.mean`: `nan` on the empty vector (numpy warns and
returns `nan`), otherwise the sum divided by the length. -/
def omean (l : List (Option ℚ)) : Option ℚ :=
  if l.isEmpty then none else (osum l).map (· / (l.length : ℚ))

/-- Nan-propagating `np.var` (`ddof=0`): mean of squared deviations. -/
def ovar (l : List (Option ℚ)) : Option ℚ :=
  (omean l).bind fun mu => omean (l.map (Option.map (fun a => (a - mu) ^ 2)))

/-- The rational core of `gelman_rubin_diagnostic` (diagnostics.py lines
455-492), everything up to the final `np.sqrt`: given the `m × n` sample
matrix `x` it raises `ValueError` when `m < 2` and otherwise returns
`v_hat / w` with `b`, `w`, `v_hat` computed exactly as in the source.
The `mu` parameter keeps Python truthiness: `mu if mu else np.mean(theta)`
falls back to the Monte Carlo estimate when `mu` is `None` or `0.0`. -/
def gelman_rubin_diagnostic_val (x : List (List (Option ℚ))) (mu : Option ℚ) :
    Except PyErr (Option ℚ) :=
  let m := x.length
  let n := (x.head?.map List.length).getD 0
  if m < 2 then .error .valueError
  else
    let theta := x.map omean
    let sigma := x.map ovar
    let theta_m := match mu with
      | some v => if v = 0 then omean theta else some v
      | none => omean theta
    let b := (osum (theta.map fun t => (o2 (· - ·) t theta_m).map (· ^ 2))).map
      (fun s => (n : ℚ) / ((m : ℚ) - 1) * s)
    let w := (osum sigma).map fun s => 1 / (m : ℚ) * s
    let v_hat := o2
      (fun wv bv => ((n : ℚ) - 1) / (n : ℚ) * wv + ((m : ℚ) + 1) / ((m : ℚ) * (n : ℚ)) * bv)
      w b
    .ok (o2 (· / ·) v_hat w)

/-- `gelman_rubin_diagnostic` (diagnostics.py lines 455-492): the square root
of `v_hat / w`, `nan` mapping to `nan` as `np.sqrt` does. -/
noncomputable def gelman_rubin_diagnostic (x : List (List (Option ℚ))) (mu : Option ℚ) :
    Except PyErr (Option ℝ) :=
  (gelman_rubin_diagnostic_val x mu).map (Option.map fun (q : ℚ) => Real.sqrt (q : ℝ))

/-- The non-error value of the diagnostic, for stating what `rhat` stores. -/
noncomputable def grDiagVal (x : List (List (Option ℚ))) : Option ℝ :=
  match gelman_rubin_diagnostic x none with
  | .ok r => r
  | .error _ => none

/-- The `rhat` helper (diagnostics.py lines 494-502): for each iteration
cutoff `t` it stores `np.nan` when `t <= num_missing_samples` and otherwise
the Gelman-Rubin diagnostic of the first `t - num_missing_samples` columns,
where `num_missing_samples = trace_dist_length - values.shape[1]`. -/
noncomputable def rhat (values : List (List (Option ℚ))) (iters : List ℕ) (L : ℕ) :
    Except PyErr (List (Option ℝ)) :=
  let numMissing := L - (values.head?.map List.length).getD 0
  iters.mapM fun t =>
    if t ≤ numMissing then .ok none
    else gelman_rubin_diagnostic (values.map (·.take (t - numMissing))) none

/-- The Pearson product-moment correlation coefficient,
`np.corrcoef(xs, ys)[0][1]`: the covariance normalised by the product of the
standard deviations (the `ddof` normalisations cancel); `none` models the
`nan` numpy produces when either sequence has zero variance (or is empty). -/
noncomputable def pearson (xs ys : List ℚ) : Option ℝ :=
  let num := (List.zipWith (fun a b => (a - mean xs) * (b - mean ys)) xs ys).sum
  let den2 := ((xs.map fun a => (a - mean xs) ^ 2).sum) * ((ys.map fun b => (b - mean ys) ^ 2).sum)
  if den2 = 0 then none else some ((num : ℝ) / Real.sqrt ((den2 : ℚ) : ℝ))

/-- The inner `autocorrelation` function of `autocorrelations`
(diagnostics.py lines 351-355): `1.` at lag `0`, and at a positive lag the
correlation coefficient `np.corrcoef(values[lag:], values[:-lag])[0][1]`. -/
noncomputable def autocorrelation (values : List ℚ) (lags : List ℕ) : List (Option ℝ) :=
  lags.map fun lag =>
    if lag = 0 then some 1
    else pearson (values.drop lag) (values.take (values.length - lag))

/-- One probabilistic choice of a trace (the external `Variable` collaborator):
an optional name, an exact address, the `control`/`observed` flags and the
tensor value, modelled as its flat list of entries so that
`value.nelement() == 1` becomes `value.length = 1`. -/
structure Variable where
  name : Option String
  address : String
  control : Bool
  observed : Bool
  value : List ℚ
deriving DecidableEq

/-- One execution trace (the external `Trace` collaborator), carrying the
views the diagnostics code reads: the `named_variables` dict as an
insertion-ordered association list, the `variables_controlled` list, the full
variable list (`trace.variables`, renamed `variables_all` because `variables`
is reserved in Lean) backing the `variables_dict_address` lookup, and the stored
`log_prob`. -/
structure Trace where
  named_variables : List (String × Variable)
  variables_controlled : List Variable
  variables_all : List Variable
  log_prob : ℚ
deriving DecidableEq

/-- An element held by an `Empirical` distribution: either a `Trace` or some
other Python value (which fails the `type(...) != Trace` checks). -/
inductive Elem
  | tr (t : Trace)
  | nonTrace
deriving DecidableEq

/-- The external `Empirical` trace distribution: an indexable ordered sequence
of elements (`length`, `_get_value(i)`, `dist[i]`). -/
structure EDist where
  elems : List Elem
deriving DecidableEq

/-- An argument supplied where an `Empirical` chain is expected: either an
actual `Empirical`, or some other Python object; a non-`Empirical` object has
no `length` attribute (for example an `int`), so reading `.length` from it
raises `AttributeError`. -/
inductive ChainArg
  | dist (d : EDist)
  | notDist
deriving DecidableEq

/-- Keys of the `variable_values` dicts: an `(address, name)` pair, the name
being `None` for variables selected by address frequency. -/
abbrev VKey := String × Option String

/-- Dict lookup `trace.variables_dict_address[address]`: the dict is built by
insertion over `variables`, so a repeated address keeps the last variable. -/
def dictAddress (t : Trace) (a : String) : Option Variable :=
  t.variables_all.reverse.find? fun v => v.address = a

/-- Dict lookup `trace.named_variables[name]` (last assignment wins). -/
def lookupNamed (t : Trace) (nm : String) : Option Variable :=
  (t.named_variables.reverse.find? fun p => p.1 = nm).map (·.2)

/-- Association-list read, `d[k]` on a Python dict modelled as an ordered
association list with distinct keys. -/
def alGet {β : Type} : List (VKey × β) → VKey → Option β
  | [], _ => none
  | p :: rest, k => if p.1 = k then some p.2 else alGet rest k

/-- Association-list write, `d[k] = v`: update in place when the key is
present, append otherwise (Python dict insertion order). -/
def alSet {β : Type} : List (VKey × β) → VKey → β → List (VKey × β)
  | [], k, v => [(k, v)]
  | p :: rest, k, v => if p.1 = k then (k, v) :: rest else p :: alSet rest k v

/-- Descending comparison used to model `sorted(items, reverse=True)` on
`(address, name)` keys: Python tuple order, lexicographic by address then
name. Comparing `None` with a string raises in Python; the modelled call
paths only sort keys whose names are all strings or all `None`, so the
`Option` cases here are a harmless total extension. -/
def keyGeB (a b : VKey) : Bool :=
  decide (b.1 < a.1) ||
    (decide (b.1 = a.1) &&
      match b.2, a.2 with
      | none, _ => true
      | some _, none => false
      | some x, some y => decide (x ≤ y))

/-- Stable descending insertion for the key sort. -/
def insertKeyDesc {β : Type} (p : VKey × β) : List (VKey × β) → List (VKey × β)
  | [] => [p]
  | q :: rest => if keyGeB p.1 q.1 then p :: q :: rest else q :: insertKeyDesc p rest

/-- Insertion sort modelling `OrderedDict(sorted(d.items(), reverse=True))`. -/
def sortKeysDesc {β : Type} (l : List (VKey × β)) : List (VKey × β) :=
  l.foldr insertKeyDesc []

/-- One admission step of the `gelman_rubin` variable-selection loop
(diagnostics.py lines 519-530): look the name up in the trace, and when the
variable is uncontrolled with a scalar value, store its value at trace index
`i` in the length-`L` nan-initialised array of key `(address, name)`. -/
def procName (L i : ℕ) (t : Trace) (d : List (VKey × List (Option ℚ))) (nm : String) :
    List (VKey × List (Option ℚ)) :=
  match lookupNamed t nm with
  | none => d
  | some v =>
    if v.control = false ∧ v.value.length = 1 then
      let q := v.value.headD 0
      let init := (alGet d (v.address, some nm)).getD (List.replicate L none)
      alSet d (v.address, some nm) (init.set i (some q))
    else d

/-- The inner loop of `single_trace_dist_values` for one trace: iterate the
trace's named-variable dict keys (or the explicit `names`). -/
def procTrace (names : Option (List String)) (L : ℕ)
    (d : List (VKey × List (Option ℚ))) (i : ℕ) (t : Trace) :
    List (VKey × List (Option ℚ)) :=
  let nameList := match names with
    | none => (t.named_variables.map Prod.fst).eraseDups
    | some ns => ns
  nameList.foldl (procName L i t) d

/-- The outer loop of `single_trace_dist_values` over trace indices. -/
def stdvLoop (names : Option (List String)) (L : ℕ)
    (d : List (VKey × List (Option ℚ))) (i : ℕ) :
    List Trace → List (VKey × List (Option ℚ))
  | [] => d
  | t :: rest => stdvLoop names L (procTrace names L d i t) (i + 1) rest

/-- Extraction of the `Trace` elements the per-trace loops iterate over: the
loops read attributes such as `named_variables` from each element, so a
non-`Trace` element raises `AttributeError` at its first use. -/
def extractTraces (es : List Elem) : Except PyErr (List Trace) :=
  es.mapM fun e =>
    match e with
    | Elem.tr t => Except.ok t
    | Elem.nonTrace => Except.error PyErr.attributeError

/-- `single_trace_dist_values` (diagnostics.py lines 504-566) for calls with
`n_most_frequent=None`: type-check the chain, check its length against the
first chain's length, collect per-variable value vectors (nan where the
variable does not appear), and return them sorted by descending key. A
non-`Trace` element reached by the loop fails its attribute accesses. -/
def singleTraceDistValues (L : ℕ) (names : Option (List String)) (c : ChainArg) :
    Except PyErr (List (VKey × List (Option ℚ))) :=
  match c with
  | .notDist => .error .typeError
  | .dist d =>
    match d.elems.head? with
    | none => .error .indexError
    | some .nonTrace => .error .typeError
    | some (.tr _) =>
      if d.elems.length ≠ L then .error .valueError
      else do
        let traces ← extractTraces d.elems
        pure (sortKeysDesc (stdvLoop names L [] 0 traces))

/-- A numpy array as held in the merged `variable_values` dict: `np.vstack`
turns the 1-dimensional per-chain vectors into a 2-dimensional matrix only
once a second chain contributes. -/
inductive NpArr
  | oneD (row : List (Option ℚ))
  | twoD (rows : List (List (Option ℚ)))
deriving DecidableEq

/-- Total number of entries, `arr.size`. -/
def npSize : NpArr → ℕ
  | .oneD r => r.length
  | .twoD rs => (rs.map List.length).sum

/-- `np.vstack((a, v))` for the shapes that arise in `merge_dicts`. -/
def vstack (a : NpArr) (v : List (Option ℚ)) : NpArr :=
  match a with
  | .oneD r => .twoD [r, v]
  | .twoD rs => .twoD (rs ++ [v])

/-- `merge_dicts` (diagnostics.py lines 447-453): fold the second dict into
the first, stacking values of shared keys. -/
def merge_dicts (d1 : List (VKey × NpArr)) (d2 : List (VKey × List (Option ℚ))) :
    List (VKey × NpArr) :=
  d2.foldl
    (fun acc kv =>
      match alGet acc kv.1 with
      | some a => alSet acc kv.1 (vstack a kv.2)
      | none => acc ++ [(kv.1, .oneD kv.2)])
    d1

/-- First column holding a non-missing entry of a chain's row, via
`np.min(c[r == i])` over `np.where(~np.isnan(value))`. -/
def firstSomeIdx (row : List (Option ℚ)) : Option ℕ := row.findIdx? Option.isSome

/-- The trimming step of `gelman_rubin` (diagnostics.py lines 579-587):
drop every column before the maximum over chains of the first non-missing
column; when no entry is present at all the starting column is one past the
width. -/
def gr_trim (value : List (List (Option ℚ))) : List (List (Option ℚ)) :=
  let firstNonNans := value.filterMap firstSomeIdx
  let startingCol := match firstNonNans.max? with
    | some c => c
    | none => (value.head?.map List.length).getD 0 + 1
  if startingCol ≠ 0 then value.map (·.drop startingCol) else value

/-- Tail of the forward-fill loop (diagnostics.py lines 592-597), carrying the
last value seen: a `nan` entry is overwritten with that value (which can
itself still be `nan` when the row so far was all `nan`). -/
def fillAux : Option ℚ → List (Option ℚ) → List (Option ℚ)
  | _, [] => []
  | last, v :: rest =>
    let vNew := match v with
      | none => last
      | some a => some a
    vNew :: fillAux vNew rest

/-- The forward-fill loop for one chain: `last_value` starts as the row's
first entry, so position 0 is kept as is (overwriting a leading `nan` with
itself) and later `nan` entries take the value carried forward. -/
def fillRow : List (Option ℚ) → List (Option ℚ)
  | [] => []
  | v :: rest => v :: fillAux v rest

/-- `trace_dists[0].length`: an `Empirical` reports its length, any other
object has no `length` attribute. -/
def chainLength : ChainArg → Except PyErr ℕ
  | .notDist => .error .attributeError
  | .dist d => .ok d.elems.length

/-- One step of the chain-merging loop of `gelman_rubin` (diagnostics.py
lines 570-571): collect one chain's values and merge them into the running
dict. -/
def grStep (names : Option (List String)) (L : ℕ) (acc : List (VKey × NpArr))
    (c : ChainArg) : Except PyErr (List (VKey × NpArr)) := do
  let d ← singleTraceDistValues L names c
  pure (merge_dicts acc d)

/-- One step of the trim-and-fill loop of `gelman_rubin` (diagnostics.py
lines 578-597): a value that is still 1-dimensional (exactly one chain) makes
the `r, c = np.where(...)` unpacking raise `ValueError`; a zero-width trimmed
matrix makes `value[chain_idx, 0]` raise `IndexError`; otherwise trim and
forward-fill. -/
def grTrimFillStep (p : VKey × NpArr) : Except PyErr (VKey × List (List (Option ℚ))) :=
  match p.2 with
  | NpArr.oneD _ => Except.error PyErr.valueError
  | NpArr.twoD mtx =>
    let trimmed := gr_trim mtx
    if trimmed.any List.isEmpty then Except.error PyErr.indexError
    else Except.ok (p.1, trimmed.map fillRow)

/-- `gelman_rubin` (diagnostics.py lines 446-640), reporting part only.
The log-spaced iteration cutoffs `np.unique(np.logspace(0, np.log10(n)))`
are floating-point and are supplied here as the `iters` parameter. Stages:
read the first chain's length (`trace_dists[0].length`), collect and merge
the per-chain variable values, drop variables not present in every chain
(the `v.size == length * num_chains` filter), trim and forward-fill each
matrix, and finally compute the per-address `rhat` curves. -/
noncomputable def gelmanRubin (chains : List ChainArg) (names : Option (List String))
    (iters : List ℕ) : Except PyErr (List ℕ × List (String × List (Option ℝ))) :=
  match chains.head? with
  | none => .error .indexError
  | some c0 => do
    let L ← chainLength c0
    let vv ← chains.foldlM (grStep names L) ([] : List (VKey × NpArr))
    let vv := vv.filter fun p => npSize p.2 == L * chains.length
    let vv2 ← vv.mapM grTrimFillStep
    let rhats ← vv2.mapM fun p => do
      let r ← rhat p.2 iters L
      pure (p.1.1, r)
    pure (iters, rhats)

/-- Argument of `autocorrelations`: an `Empirical`, or some other object
(which fails the `type(trace_dist) != Empirical` check). -/
inductive ACArg
  | dist (d : EDist)
  | notDist
deriving DecidableEq

/-- Bump the occurrence count of one address (first-appearance dict order). -/
def bumpCount : List (String × ℕ) → String → List (String × ℕ)
  | [], a => [(a, 1)]
  | p :: rest, a => if p.1 = a then (p.1, p.2 + 1) :: rest else p :: bumpCount rest a

/-- The address-frequency count of the `n_most_frequent` selection
(diagnostics.py lines 369-382): count, across all traces, the controlled
variables with scalar values, keyed by exact address. -/
def addressCounts (traces : List Trace) : List (String × ℕ) :=
  traces.foldl
    (fun acc t =>
      (t.variables_controlled.filter fun v => v.value.length == 1).foldl
        (fun acc2 v => bumpCount acc2 v.address) acc)
    []

/-- Stable descending insertion by count, for
`sorted(address_counts.items(), key=lambda x: x[1], reverse=True)`. -/
def insertCountDesc (p : String × ℕ) : List (String × ℕ) → List (String × ℕ)
  | [] => [p]
  | q :: rest => if q.2 ≤ p.2 then p :: q :: rest else q :: insertCountDesc p rest

/-- Stable descending sort by count. -/
def sortCountsDesc (l : List (String × ℕ)) : List (String × ℕ) :=
  l.foldr insertCountDesc []

/-- Stable descending insertion of a bare key. -/
def insertVKeyDesc (k : VKey) : List VKey → List VKey
  | [] => [k]
  | q :: rest => if keyGeB k q then k :: q :: rest else q :: insertVKeyDesc k rest

/-- `sorted(variable_values.items(), reverse=True)` on the bare key set. -/
def sortVKeysDesc (l : List VKey) : List VKey :=
  l.foldr insertVKeyDesc []

/-- The variable-selection phase of `autocorrelations` (diagnostics.py lines
346-391): type checks, then the keys gathered from the last trace's named
variables (unobserved, scalar-valued) when `names` is `None`, or from the
explicit `names` (a missing name raises `KeyError`), plus the keys of the `n`
most frequent controlled scalar addresses that appear in every trace. A
Python `n_most_frequent` of `0` never hits the `== n_most_frequent` break,
so it selects every qualifying address. -/
def acSelect (arg : ACArg) (names : Option (List String)) (nMostFrequent : Option ℕ) :
    Except PyErr (List VKey) :=
  match arg with
  | .notDist => .error .typeError
  | .dist d =>
    match d.elems.head? with
    | none => .error .indexError
    | some .nonTrace => .error .typeError
    | some (.tr _) => do
      let lastTrace ← match d.elems.getLast? with
        | some (Elem.tr t) => Except.ok t
        | some Elem.nonTrace => Except.error PyErr.attributeError
        | none => Except.error PyErr.indexError
      let keys1 ← match names with
        | none =>
          Except.ok ((lastTrace.named_variables.map Prod.fst).eraseDups.filterMap fun nm =>
            match lookupNamed lastTrace nm with
            | some v =>
              if v.observed = false ∧ v.value.length = 1 then some (v.address, some nm)
              else none
            | none => none)
        | some ns =>
          ns.mapM fun nm =>
            match lookupNamed lastTrace nm with
            | some v => Except.ok ((v.address, some nm) : VKey)
            | none => Except.error PyErr.keyError
      let keys2 ← match nMostFrequent with
        | none => Except.ok ([] : List VKey)
        | some nmf => do
          let traces ← extractTraces d.elems
          let counts := addressCounts traces
          let counts := counts.filter fun p => d.elems.length ≤ p.2
          let counts := sortCountsDesc counts
          let counts := if nmf = 0 then counts else counts.take nmf
          Except.ok (counts.map fun p => ((p.1, (none : Option String)) : VKey))
      pure (keys1 ++ keys2)

/-- The value-loading loop of `autocorrelations` (diagnostics.py lines
400-404) for one key: every trace must hold the address
(`trace.variables_dict_address[address]`, else `KeyError`) with a value
convertible by `float(...)`, modelled as requiring a single-element tensor. -/
def acLoad (traces : List Trace) (k : VKey) : Except PyErr (List ℚ) :=
  traces.mapM fun t =>
    match dictAddress t k.1 with
    | none => Except.error PyErr.keyError
    | some v =>
      match v.value with
      | [q] => Except.ok q
      | _ => Except.error PyErr.valueError

/-- `autocorrelations` (diagnostics.py lines 345-443), reporting part only.
The default log-spaced `lags` (`np.logspace`) are floating-point and are
supplied here as the `lags` parameter. Stages: select the variables, raise
`RuntimeError` when none qualifies, sort the keys in descending order, load
each variable's values from every trace, and compute the per-address
autocorrelation curves. -/
noncomputable def autocorrelations (arg : ACArg) (names : Option (List String))
    (lags : List ℕ) (nMostFrequent : Option ℕ) :
    Except PyErr (List ℕ × List (String × List (Option ℝ))) := do
  let keys ← acSelect arg names nMostFrequent
  if keys.isEmpty then Except.error PyErr.runtimeError
  else do
    let keys := sortVKeysDesc keys
    let traces ← match arg with
      | .dist d => extractTraces d.elems
      | .notDist => Except.error PyErr.typeError
    let loaded ← keys.mapM fun k => do
      let vals ← acLoad traces k
      pure (k, vals)
    pure (lags, loaded.map fun p => (p.1.1, autocorrelation p.2 lags))

/-- Argument of `log_prob`: a Python list of distributions, or some other
object (which fails the `type(trace_dists) != list` check). -/
inductive LPArg
  | list (ds : List EDist)
  | notList
deriving DecidableEq

/-- The subsampled indices `range(0, n, max(1, int(n / resolution)))`. -/
def lpIdxs (n resolution : ℕ) : List ℕ :=
  (List.range n).filter fun i => i % max 1 (n / resolution) == 0

/-- Processing of one distribution inside `log_prob` (diagnostics.py lines
293-313): check that the first element is a `Trace`, then read the stored
`log_prob` of each subsampled trace. -/
def logProbOne (resolution : ℕ) (d : EDist) : Except PyErr (List ℕ × List ℚ) :=
  match d.elems.head? with
  | none => Except.error PyErr.indexError
  | some .nonTrace => Except.error PyErr.typeError
  | some (.tr _) => do
    let idxs := lpIdxs d.elems.length resolution
    let vals ← idxs.mapM fun i =>
      match d.elems[i]? with
      | some (Elem.tr t) => Except.ok t.log_prob
      | some Elem.nonTrace => Except.error PyErr.attributeError
      | none => Except.error PyErr.indexError
    pure (idxs, vals)

/-- `log_prob` (diagnostics.py lines 288-342), reporting part only: raise
`TypeError` unless the argument is a Python list, then collect the iteration
indices and log-probability sequences of every supplied distribution. -/
def logProb (arg : LPArg) (resolution : ℕ) :
    Except PyErr (List (List ℕ) × List (List ℚ)) :=
  match arg with
  | .notList => .error .typeError
  | .list ds => do
    let rs ← ds.mapM (logProbOne resolution)
    pure (rs.map (·.1), rs.map (·.2))

/-- A weighted `Empirical` as constructed by `graph`: values, weights, name. -/
structure EmpiricalModel where
  values : List ℕ
  weights : List ℕ
  name : String
deriving DecidableEq

/-- The distribution-building fragment of `graph` (diagnostics.py lines
144-155), taking the per-address and per-trace-type occurrence counts read
off the external `Graph` collaborator's `address_stats` and `trace_stats`:
the address-ID distribution is weighted by the address counts, while the
trace-ID distribution is constructed with `weights=trace_ids`, the collected
`trace_weights` list being left unused. -/
def graphIdDists (addressCounts traceCounts : List ℕ) :
    EmpiricalModel × EmpiricalModel :=
  let address_ids := List.range addressCounts.length
  let address_weights := addressCounts
  let address_id_dist : EmpiricalModel :=
    { values := address_ids, weights := address_weights, name := "Address ID" }
  let trace_ids := List.range traceCounts.length
  let trace_weights := traceCounts
  let trace_id_dist : EmpiricalModel :=
    { values := trace_ids, weights := trace_ids, name := "Unique trace ID" }
  (address_id_dist, trace_id_dist)

/-! ### Bridging lemmas between nan-aware and plain rational reductions -/

lemma osum_cons (a : Option ℚ) (l : List (Option ℚ)) :
    osum (a :: l) = o2 (· + ·) a (osum l) := rfl

lemma osum_map_some (l : List ℚ) : osum (l.map some) = some l.sum := by
  induction l with
  | nil => rfl
  | cons a t ih => rw [List.map_cons, osum_cons, ih]; rfl

lemma omean_map_some (l : List ℚ) (h : l ≠ []) : omean (l.map some) = some (mean l) := by
  have hne : (l.map some).isEmpty = false := by
    cases l with
    | nil => exact absurd rfl h
    | cons a t => rfl
  unfold omean mean
  rw [hne, osum_map_some]
  simp

lemma ovar_map_some (l : List ℚ) (h : l ≠ []) : ovar (l.map some) = some (varP l) := by
  have h2 : l.map (fun a => (a - mean l) ^ 2) ≠ [] := by
    simpa using h
  unfold ovar
  rw [omean_map_some l h]
  show omean ((l.map some).map (Option.map fun a => (a - mean l) ^ 2)) = some (varP l)
  rw [show (l.map some).map (Option.map fun a => (a - mean l) ^ 2)
        = (l.map fun a => (a - mean l) ^ 2).map some from by
      rw [List.map_map, List.map_map]; rfl]
  rw [omean_map_some _ h2]
  rfl

lemma mean_replicate (m : ℕ) (hm : m ≠ 0) (a : ℚ) : mean (List.replicate m a) = a := by
  unfold mean
  rw [List.sum_replicate, List.length_replicate, nsmul_eq_mul]
  have : (m : ℚ) ≠ 0 := Nat.cast_ne_zero.mpr hm
  field_simp

/-- The Gelman-Rubin formula exactly as the specification words it, for an
`m × n` matrix of plain rationals: per-chain means `theta`, within-chain
variance `W` as the mean chain variance, between-chain variance
`B = n/(m-1) · Σ(θᵢ − θ̄)²`, pooled estimate
`V̂ = (n−1)/n·W + (m+1)/(mn)·B`, and the ratio `V̂/W` under the root. -/
def grFormulaSpec (x : List (List ℚ)) (n : ℕ) : ℚ :=
  let m : ℚ := x.length
  let theta : List ℚ := x.map mean
  let W : ℚ := 1 / m * (x.map varP).sum
  let B : ℚ := (n : ℚ) / (m - 1) * ((theta.map fun t => (t - mean theta) ^ 2).sum)
  (((n : ℚ) - 1) / n * W + (m + 1) / (m * n) * B) / W

lemma grdv_formula (x : List (List ℚ)) (n : ℕ) (hm : 2 ≤ x.length) (hn : 1 ≤ n)
    (hrect : ∀ r ∈ x, r.length = n) :
    gelman_rubin_diagnostic_val (x.map (·.map some)) none = .ok (some (grFormulaSpec x n)) := by
  have hx : x ≠ [] := by
    rintro rfl; simp at hm
  have hrow : ∀ r ∈ x, r ≠ [] := by
    intro r hr h
    have := hrect r hr
    rw [h] at this
    simp at this
    omega
  have hhead : (((x.map (·.map some)).head?.map List.length).getD 0) = n := by
    cases x with
    | nil => exact absurd rfl hx
    | cons r0 x1 => simp [hrect r0 (List.mem_cons_self r0 x1)]
  have hlen : (x.map (·.map some)).length = x.length := List.length_map x _
  have htheta : (x.map (·.map some)).map omean = (x.map mean).map some := by
    rw [List.map_map, List.map_map]
    refine List.map_congr_left fun r hr => ?_
    exact omean_map_some r (hrow r hr)
  have hsigma : (x.map (·.map some)).map ovar = (x.map varP).map some := by
    rw [List.map_map, List.map_map]
    refine List.map_congr_left fun r hr => ?_
    exact ovar_map_some r (hrow r hr)
  have hthne : x.map mean ≠ [] := by simpa using hx
  unfold gelman_rubin_diagnostic_val
  rw [hhead, hlen, if_neg (by omega)]
  dsimp only
  rw [htheta, hsigma, omean_map_some _ hthne]
  have hdev : ((x.map mean).map some).map
        (fun t => (o2 (· - ·) t (some (mean (x.map mean)))).map (· ^ 2))
      = ((x.map mean).map fun t => (t - mean (x.map mean)) ^ 2).map some := by
    rw [List.map_map, List.map_map, List.map_map, List.map_map]
    exact List.map_congr_left fun r _ => rfl
  rw [hdev, osum_map_some, osum_map_some]
  rfl

/-- C1: for every variable-value matrix `x` with `m ≥ 2` chains and `n ≥ 1`
iterations, the Gelman-Rubin diagnostic computed by `gelman_rubin_diagnostic`
equals `sqrt(V̂/W)` where the per-chain means and variances are taken over
each row, `B = n/(m-1)·Σ(θᵢ − θ̄)²`, `W = (1/m)·Σσᵢ`, and
`V̂ = (n-1)/n·W + (m+1)/(mn)·B` (`grFormulaSpec` spells the claim's
formula). -/
theorem gelman_rubin_diagnostic_matches_spec (x : List (List ℚ)) (n : ℕ)
    (hm : 2 ≤ x.length) (hn : 1 ≤ n) (hrect : ∀ r ∈ x, r.length = n) :
    gelman_rubin_diagnostic (x.map (·.map some)) none =
      .ok (some (Real.sqrt ((grFormulaSpec x n : ℚ) : ℝ))) := by
  rw [gelman_rubin_diagnostic, grdv_formula x n hm hn hrect]
  rfl

/-- Witness for C1 at the concrete matrix `[[0,1],[1,3]]` with `n = 2`. -/
theorem gelman_rubin_diagnostic_matches_spec_witness :
    2 ≤ ([[0, 1], [1, 3]] : List (List ℚ)).length ∧
      gelman_rubin_diagnostic (([[0, 1], [1, 3]] : List (List ℚ)).map (·.map some)) none =
        .ok (some (Real.sqrt ((grFormulaSpec [[0, 1], [1, 3]] 2 : ℚ) : ℝ))) :=
  ⟨by decide,
    gelman_rubin_diagnostic_matches_spec [[0, 1], [1, 3]] 2 (by decide) (by decide)
      (by decide)⟩

lemma grFormulaSpec_replicate (m n : ℕ) (v : List ℚ) (hm : 2 ≤ m) (hv : varP v ≠ 0) :
    grFormulaSpec (List.replicate m v) n = ((n : ℚ) - 1) / n := by
  have hm0 : (m : ℚ) ≠ 0 := Nat.cast_ne_zero.mpr (by omega)
  have h1 : mean (List.replicate m (mean v)) = mean v := mean_replicate m (by omega) _
  unfold grFormulaSpec
  dsimp only
  simp only [List.length_replicate, List.map_replicate, h1, List.sum_replicate,
    sub_self, nsmul_eq_mul]
  rw [show ((0 : ℚ) ^ 2) = 0 from by ring, mul_zero, mul_zero, mul_zero, add_zero]
  rw [show (1 : ℚ) / (m : ℚ) * ((m : ℚ) * varP v) = varP v from by field_simp]
  rw [mul_div_assoc, div_self hv, mul_one]

/-- C6: for `m ≥ 2` identical chains sharing a value sequence of length
`n ≥ 2` with nonzero variance, the between-chain variance vanishes and the
Gelman-Rubin diagnostic equals `sqrt((n-1)/n)`. -/
theorem gelman_rubin_identical_chains (m n : ℕ) (v : List ℚ)
    (hm : 2 ≤ m) (hn : 2 ≤ n) (hlen : v.length = n) (hv : varP v ≠ 0) :
    gelman_rubin_diagnostic (List.replicate m (v.map some)) none =
      .ok (some (Real.sqrt ((((n : ℚ) - 1) / (n : ℚ) : ℚ) : ℝ))) := by
  have hx : List.replicate m (v.map some) = (List.replicate m v).map (·.map some) := by
    rw [List.map_replicate]
  have hrect : ∀ r ∈ List.replicate m v, r.length = n := by
    intro r hr
    rw [List.eq_of_mem_replicate hr]
    exact hlen
  rw [hx, gelman_rubin_diagnostic,
    grdv_formula (List.replicate m v) n (by simpa using hm) (by omega) hrect,
    grFormulaSpec_replicate m n v hm hv]
  rfl

/-- Witness for C6 at two copies of `[0, 1]`. -/
theorem gelman_rubin_identical_chains_witness :
    varP [0, 1] ≠ 0 ∧
      gelman_rubin_diagnostic (List.replicate 2 (([0, 1] : List ℚ).map some)) none =
        .ok (some (Real.sqrt ((((2 : ℚ) - 1) / (2 : ℚ) : ℚ) : ℝ))) :=
  ⟨by norm_num [varP, mean], gelman_rubin_identical_chains 2 2 [0, 1] (by decide) (by decide)
    (by decide) (by norm_num [varP, mean])⟩

/-- C2: the `autocorrelation` helper used by `autocorrelations` returns
exactly `1.0` at lag `0`, and at a positive lag `k < values.length` the
Pearson correlation coefficient between `values[k:]` and `values[:-k]`. -/
theorem autocorrelation_entries (values : List ℚ) (lags : List ℕ) (i : ℕ)
    (hi : i < lags.length) (hk : lags[i] < values.length) :
    (autocorrelation values lags)[i]? =
      some (if lags[i] = 0 then some (1 : ℝ)
        else pearson (values.drop lags[i]) (values.take (values.length - lags[i]))) := by
  unfold autocorrelation
  rw [List.getElem?_map, List.getElem?_eq_getElem hi]
  rfl

/-- Witness for C2 at `values = [1, 2, 4]`, `lags = [0, 2]`, `i = 1`. -/
theorem autocorrelation_entries_witness :
    1 < ([0, 2] : List ℕ).length ∧
      (autocorrelation [1, 2, 4] [0, 2])[1]? =
        some (if (2 : ℕ) = 0 then some (1 : ℝ)
          else pearson (([1, 2, 4] : List ℚ).drop 2) (([1, 2, 4] : List ℚ).take 1)) :=
  ⟨by decide, autocorrelation_entries [1, 2, 4] [0, 2] 1 (by decide) (by decide)⟩

/-- C10: in the `graph` fragment, the trace-ID `Empirical` is weighted by the
trace IDs themselves (`weights=trace_ids`), not by the collected per-trace
counts, while the address-ID `Empirical` is weighted by the per-address
counts. -/
theorem graph_trace_id_dist_weights (ac tc : List ℕ) :
    (graphIdDists ac tc).2.weights = List.range tc.length ∧
      (graphIdDists ac tc).2.weights = (graphIdDists ac tc).2.values ∧
      (graphIdDists ac tc).1.weights = ac :=
  ⟨rfl, rfl, rfl⟩

lemma mapM_ok_of_forall {α β : Type} (f : α → Except PyErr β) (g : α → β) (l : List α)
    (h : ∀ a ∈ l, f a = .ok (g a)) : l.mapM f = .ok (l.map g) := by
  induction l with
  | nil => rfl
  | cons a t ih =>
      rw [List.mapM_cons, h a (List.mem_cons_self a t),
        ih fun b hb => h b (List.mem_cons_of_mem a hb)]
      rfl

lemma diag_ok_of_two_le (x : List (List (Option ℚ))) (h : 2 ≤ x.length) :
    gelman_rubin_diagnostic x none = .ok (grDiagVal x) := by
  obtain ⟨r, hr⟩ : ∃ r, gelman_rubin_diagnostic x none = .ok r := by
    unfold gelman_rubin_diagnostic gelman_rubin_diagnostic_val
    dsimp only
    rw [if_neg (by omega)]
    exact ⟨_, rfl⟩
  rw [hr]
  unfold grDiagVal
  rw [hr]

/-- C5 (amended): with at least two chains, the `rhat` helper stores `NaN` at
an iteration cutoff `t` exactly when `t ≤ num_missing` (not `t < num_missing`
as claimed: the boundary cutoff `t = num_missing` also yields `NaN`), and the
Gelman-Rubin diagnostic of the first `t - num_missing` columns otherwise,
where `num_missing = L - values.shape[1]`. -/
theorem rhat_cutoffs (values : List (List (Option ℚ))) (iters : List ℕ) (L : ℕ)
    (hm : 2 ≤ values.length) :
    rhat values iters L = .ok (iters.map fun t =>
      if t ≤ L - (values.head?.map List.length).getD 0 then none
      else grDiagVal
        (values.map (·.take (t - (L - (values.head?.map List.length).getD 0))))) := by
  unfold rhat
  dsimp only
  refine mapM_ok_of_forall _ _ iters fun t _ => ?_
  by_cases h : t ≤ L - (values.head?.map List.length).getD 0
  · rw [if_pos h, if_pos h]
  · rw [if_neg h, if_neg h]
    exact diag_ok_of_two_le _ (by rw [List.length_map]; exact hm)

/-- Witness for C5 at a full 2×2 matrix with `L = 2` and cutoffs `[1, 2]`. -/
theorem rhat_cutoffs_witness :
    2 ≤ ([[some 1, some 2], [some 3, some 4]] : List (List (Option ℚ))).length ∧
      rhat [[some 1, some 2], [some 3, some 4]] [1, 2] 2 =
        .ok (([1, 2] : List ℕ).map fun t =>
          if t ≤ 0 then none
          else grDiagVal
            (([[some 1, some 2], [some 3, some 4]] : List (List (Option ℚ))).map
              (·.take t))) :=
  ⟨by decide, rhat_cutoffs [[some 1, some 2], [some 3, some 4]] [1, 2] 2 (by decide)⟩

/-- C5 counterexample: with `trace_dist_length = 2` and a width-1 matrix the
number of missing samples is `1`, and at the cutoff `t = 1` — which is not
below `num_missing` — `rhat` still stores `NaN`, refuting the claim that
`NaN` is returned exactly when `t` is below `num_missing`. -/
theorem rhat_cutoff_boundary : rhat [[some 1], [some 2]] [1] 2 = .ok [none] ∧ ¬(1 < 2 - 1) :=
  ⟨rfl, by decide⟩

lemma fillAux_all_some (last : Option ℚ) (s : List ℚ) :
    fillAux last (s.map some) = s.map some := by
  induction s generalizing last with
  | nil => rfl
  | cons c rest ih => rw [List.map_cons]; show some c :: fillAux (some c) _ = _; rw [ih]

lemma fillAux_spec (a : ℚ) (p s : List ℚ) :
    fillAux (some a) (p.map some ++ none :: s.map some)
      = p.map some ++ some (p.getLastD a) :: s.map some := by
  induction p generalizing a with
  | nil =>
      rw [List.map_nil, List.nil_append, List.nil_append, List.getLastD_nil]
      show some a :: fillAux (some a) (s.map some) = some a :: s.map some
      rw [fillAux_all_some]
  | cons b p ih =>
      rw [List.map_cons, List.cons_append, List.cons_append, List.getLastD_cons]
      show some b :: fillAux (some b) (p.map some ++ none :: s.map some) = _
      rw [ih b]

/-- C3: in the per-variable matrix preparation of `gelman_rubin`, (i) the
matrix is trimmed to start at the maximum over chains of each chain's first
non-missing column, and (ii) on a trimmed row with a single missing entry at
position `p.length > 0` the fill loop replaces the entry with the row's value
at the preceding position (last-observed-value carry-forward), leaving every
other entry unchanged. -/
theorem gelman_rubin_trim_and_fill :
    (∀ (value : List (List (Option ℚ))) (c : ℕ),
        (value.filterMap firstSomeIdx).max? = some c →
        gr_trim value = value.map (·.drop c)) ∧
      (∀ (p s : List ℚ) (hp : p ≠ []),
        fillRow (p.map some ++ none :: s.map some)
          = p.map some ++ some (p.getLast hp) :: s.map some) := by
  constructor
  · intro value c h
    unfold gr_trim
    dsimp only
    rw [h]
    by_cases hc : c = 0
    · subst hc
      rw [if_neg (by simp)]
      have : ∀ r : List (Option ℚ), r.drop 0 = r := fun r => List.drop_zero r
      simp
    · rw [if_pos (by simpa using hc)]
  · intro p s hp
    obtain ⟨b, p1, rfl⟩ : ∃ b p1, p = b :: p1 := by
      cases p with
      | nil => exact absurd rfl hp
      | cons b p1 => exact ⟨b, p1, rfl⟩
    rw [List.map_cons, List.cons_append]
    show some b :: fillAux (some b) (p1.map some ++ none :: s.map some) = _
    rw [fillAux_spec b p1 s, List.getLast_eq_getLastD, List.cons_append]

/-- Witness for C3: trimming `[[none, some 1], [some 2, none]]` at the
maximal first-appearance column `1`, and filling the single gap of
`[3, 4, nan, 5]` with the value `4` at the preceding position. -/
theorem gelman_rubin_trim_and_fill_witness :
    ((([[none, some 1], [some 2, none]] : List (List (Option ℚ))).filterMap
        firstSomeIdx).max? = some 1 ∧
      gr_trim [[none, some 1], [some 2, none]] =
        ([[none, some 1], [some 2, none]] : List (List (Option ℚ))).map (·.drop 1)) ∧
      (([3, 4] : List ℚ) ≠ [] ∧
        fillRow (([3, 4] : List ℚ).map some ++ none :: ([5] : List ℚ).map some)
          = ([3, 4] : List ℚ).map some ++ some 4 :: ([5] : List ℚ).map some) := by
  constructor
  · exact ⟨by decide, gelman_rubin_trim_and_fill.1 [[none, some 1], [some 2, none]] 1 (by decide)⟩
  · refine ⟨by decide, ?_⟩
    have h := gelman_rubin_trim_and_fill.2 [3, 4] [5] (by decide)
    simpa using h

/-- Concrete trace material used by the witnesses: one unobserved,
uncontrolled scalar variable named `a` at address `x`. -/
def wVar : Variable :=
  { name := some "a", address := "x", control := false, observed := false, value := [3] }

/-- A trace holding only `wVar`. -/
def wTrace : Trace :=
  { named_variables := [("a", wVar)], variables_controlled := [], variables_all := [wVar],
    log_prob := 0 }

/-- A one-trace distribution over `wTrace`. -/
def wDist : EDist := { elems := [Elem.tr wTrace] }

/-- Concrete witness material with an observed variable (which neither
selection admits by name). -/
def wVarObs : Variable :=
  { name := some "a", address := "x", control := false, observed := true, value := [3] }

/-- A trace holding only `wVarObs`. -/
def wTraceObs : Trace :=
  { named_variables := [("a", wVarObs)], variables_controlled := [],
    variables_all := [wVarObs], log_prob := 0 }

/-- A one-trace distribution over `wTraceObs`. -/
def wDistObs : EDist := { elems := [Elem.tr wTraceObs] }

/-- C8: whenever the variable-selection phase of `autocorrelations` (explicit
names, last-trace named variables, or most-frequent controlled addresses)
yields an empty key set, the function fails with `RuntimeError` before any
autocorrelation is computed. -/
theorem autocorrelations_no_variables (arg : ACArg) (names : Option (List String))
    (lags : List ℕ) (nmf : Option ℕ) (h : acSelect arg names nmf = .ok []) :
    autocorrelations arg names lags nmf = .error .runtimeError := by
  unfold autocorrelations
  rw [h]
  rfl

/-- Witness for C8: a single-trace chain whose only named variable is
observed, with `names = None` and no frequency selection, selects nothing. -/
theorem autocorrelations_no_variables_witness :
    acSelect (ACArg.dist wDistObs) none none = .ok [] ∧
      autocorrelations (ACArg.dist wDistObs) none [] none = .error .runtimeError :=
  ⟨rfl, autocorrelations_no_variables (ACArg.dist wDistObs) none [] none rfl⟩

/-! ### Key-membership lemmas for the `gelman_rubin` selection loop -/

lemma mem_keys_alSet {β : Type} (d : List (VKey × β)) (k : VKey) (v : β) (a : VKey)
    (h : a ∈ (alSet d k v).map Prod.fst) : a = k ∨ a ∈ d.map Prod.fst := by
  induction d with
  | nil => simpa [alSet] using h
  | cons p rest ih =>
      rw [alSet] at h
      by_cases hp : p.1 = k
      · rw [if_pos hp, List.map_cons] at h
        rcases List.mem_cons.mp h with h1 | h1
        · exact Or.inl h1
        · exact Or.inr (by rw [List.map_cons]; exact List.mem_cons_of_mem _ h1)
      · rw [if_neg hp, List.map_cons] at h
        rcases List.mem_cons.mp h with h1 | h1
        · exact Or.inr (by rw [List.map_cons, h1]; exact List.mem_cons_self _ _)
        · rcases ih h1 with h2 | h2
          · exact Or.inl h2
          · exact Or.inr (by rw [List.map_cons]; exact List.mem_cons_of_mem _ h2)

lemma mem_keys_procName (L i : ℕ) (t : Trace) (d : List (VKey × List (Option ℚ)))
    (nm : String) (a : VKey) (h : a ∈ (procName L i t d nm).map Prod.fst) :
    a ∈ d.map Prod.fst ∨ ∃ v, lookupNamed t nm = some v ∧ v.control = false ∧
      v.value.length = 1 ∧ a = (v.address, some nm) := by
  unfold procName at h
  cases hl : lookupNamed t nm with
  | none => rw [hl] at h; exact Or.inl h
  | some v =>
      rw [hl] at h
      dsimp only at h
      by_cases hc : v.control = false ∧ v.value.length = 1
      · rw [if_pos hc] at h
        rcases mem_keys_alSet _ _ _ _ h with h1 | h1
        · exact Or.inr ⟨v, rfl, hc.1, hc.2, h1⟩
        · exact Or.inl h1
      · rw [if_neg hc] at h
        exact Or.inl h

lemma mem_keys_foldl_procName (L i : ℕ) (t : Trace) (nl : List String)
    (d : List (VKey × List (Option ℚ))) (a : VKey)
    (h : a ∈ (nl.foldl (procName L i t) d).map Prod.fst) :
    a ∈ d.map Prod.fst ∨ ∃ nm v, lookupNamed t nm = some v ∧ v.control = false ∧
      v.value.length = 1 ∧ a = (v.address, some nm) := by
  induction nl generalizing d with
  | nil => exact Or.inl h
  | cons nm nl ih =>
      rw [List.foldl_cons] at h
      rcases ih (procName L i t d nm) h with h1 | h1
      · rcases mem_keys_procName L i t d nm a h1 with h2 | h2
        · exact Or.inl h2
        · exact Or.inr ⟨nm, h2⟩
      · exact Or.inr h1

lemma mem_keys_procTrace (names : Option (List String)) (L : ℕ)
    (d : List (VKey × List (Option ℚ))) (i : ℕ) (t : Trace) (a : VKey)
    (h : a ∈ (procTrace names L d i t).map Prod.fst) :
    a ∈ d.map Prod.fst ∨ ∃ nm v, lookupNamed t nm = some v ∧ v.control = false ∧
      v.value.length = 1 ∧ a = (v.address, some nm) := by
  unfold procTrace at h
  exact mem_keys_foldl_procName L i t _ d a h

lemma mem_keys_stdvLoop (names : Option (List String)) (L : ℕ) (traces : List Trace)
    (d : List (VKey × List (Option ℚ))) (i : ℕ) (a : VKey)
    (h : a ∈ (stdvLoop names L d i traces).map Prod.fst) :
    a ∈ d.map Prod.fst ∨ ∃ t ∈ traces, ∃ nm v, lookupNamed t nm = some v ∧
      v.control = false ∧ v.value.length = 1 ∧ a = (v.address, some nm) := by
  induction traces generalizing d i with
  | nil => exact Or.inl h
  | cons t rest ih =>
      rw [stdvLoop] at h
      rcases ih (procTrace names L d i t) (i + 1) h with h1 | h1
      · rcases mem_keys_procTrace names L d i t a h1 with h2 | h2
        · exact Or.inl h2
        · exact Or.inr ⟨t, List.mem_cons_self t rest, h2⟩
      · obtain ⟨u, hu, rest2⟩ := h1
        exact Or.inr ⟨u, List.mem_cons_of_mem t hu, rest2⟩

lemma perm_insertKeyDesc {β : Type} (p : VKey × β) (l : List (VKey × β)) :
    (insertKeyDesc p l).Perm (p :: l) := by
  induction l with
  | nil => exact List.Perm.refl _
  | cons q rest ih =>
      rw [insertKeyDesc]
      by_cases h : keyGeB p.1 q.1
      · rw [if_pos h]
      · rw [if_neg h]
        exact (ih.cons q).trans (List.Perm.swap p q rest)

lemma perm_sortKeysDesc {β : Type} (l : List (VKey × β)) : (sortKeysDesc l).Perm l := by
  induction l with
  | nil => exact List.Perm.refl _
  | cons p rest ih => exact (perm_insertKeyDesc p _).trans (ih.cons p)

lemma extractTraces_mem (es : List Elem) (ts : List Trace)
    (h : extractTraces es = .ok ts) : ∀ t ∈ ts, Elem.tr t ∈ es := by
  induction es generalizing ts with
  | nil =>
      rw [extractTraces, List.mapM_nil] at h
      cases h
      intro t ht
      exact absurd ht (List.not_mem_nil t)
  | cons e rest ih =>
      rw [extractTraces, List.mapM_cons] at h
      cases e with
      | nonTrace => simp [Bind.bind, Except.bind] at h
      | tr t0 =>
          simp only [Bind.bind, Except.bind] at h
          cases hrest : rest.mapM (fun e => match e with
              | Elem.tr t => Except.ok t
              | Elem.nonTrace => Except.error PyErr.attributeError) with
          | error err => rw [hrest] at h; cases h
          | ok bs =>
              rw [hrest] at h
              cases h
              intro t ht
              rcases List.mem_cons.mp ht with h1 | h1
              · rw [h1]; exact List.mem_cons_self _ _
              · exact List.mem_cons_of_mem _ (ih bs hrest t h1)

/-- C9: with `names = None`, the `gelman_rubin` selection loop
(`single_trace_dist_values`) admits a variable key only when some trace holds
it with `control = False` and a single-element value — so every controlled
named variable is excluded — whereas the `autocorrelations` selection admits
a key from the last trace only when the variable is unobserved with a
single-element value (no condition on `control`). -/
theorem gelman_rubin_selection_excludes_controlled :
    (∀ (L : ℕ) (d : EDist) (vv : List (VKey × List (Option ℚ))),
        singleTraceDistValues L none (.dist d) = .ok vv →
        ∀ p ∈ vv, ∃ t, Elem.tr t ∈ d.elems ∧ ∃ nm v, lookupNamed t nm = some v ∧
          v.control = false ∧ v.value.length = 1 ∧ p.1 = (v.address, some nm)) ∧
      (∀ (d : EDist) (keys : List VKey),
          acSelect (.dist d) none none = .ok keys →
          ∀ k ∈ keys, ∃ t, d.elems.getLast? = some (Elem.tr t) ∧ ∃ nm v,
            lookupNamed t nm = some v ∧ v.observed = false ∧ v.value.length = 1 ∧
            k = (v.address, some nm)) := by
  constructor
  · intro L d vv h p hp
    unfold singleTraceDistValues at h
    dsimp only at h
    cases hd : d.elems.head? with
    | none => rw [hd] at h; cases h
    | some e =>
        rw [hd] at h
        cases e with
        | nonTrace => cases h
        | tr t0 =>
            by_cases hL : d.elems.length ≠ L
            · rw [if_pos hL] at h; cases h
            · rw [if_neg hL] at h
              simp only [Bind.bind, Except.bind] at h
              cases hex : extractTraces d.elems with
              | error err => rw [hex] at h; cases h
              | ok traces =>
                  rw [hex] at h
                  cases h
                  have hp2 : p ∈ stdvLoop none L [] 0 traces :=
                    (perm_sortKeysDesc _).mem_iff.mp hp
                  have hk : p.1 ∈ (stdvLoop none L [] 0 traces).map Prod.fst :=
                    List.mem_map_of_mem Prod.fst hp2
                  rcases mem_keys_stdvLoop none L traces [] 0 p.1 hk with h1 | h1
                  · exact absurd h1 (by simp)
                  · obtain ⟨t, ht, nm, v, hv1, hv2, hv3, hv4⟩ := h1
                    exact ⟨t, extractTraces_mem d.elems traces hex t ht, nm, v, hv1, hv2,
                      hv3, hv4⟩
  · intro d keys h k hk
    unfold acSelect at h
    dsimp only at h
    cases hd : d.elems.head? with
    | none => rw [hd] at h; cases h
    | some e =>
        rw [hd] at h
        cases e with
        | nonTrace => cases h
        | tr t0 =>
            cases hlast : d.elems.getLast? with
            | none => rw [hlast] at h; cases h
            | some e2 =>
                rw [hlast] at h
                cases e2 with
                | nonTrace => cases h
                | tr lt =>
                    simp only [Bind.bind, Except.bind] at h
                    cases h
                    rw [List.append_nil] at hk
                    obtain ⟨nm, hnm, hf⟩ := List.mem_filterMap.mp hk
                    cases hl : lookupNamed lt nm with
                    | none => rw [hl] at hf; cases hf
                    | some v =>
                        rw [hl] at hf
                        dsimp only at hf
                        by_cases hc : v.observed = false ∧ v.value.length = 1
                        · rw [if_pos hc] at hf
                          cases hf
                          exact ⟨lt, rfl, nm, v, hl, hc.1, hc.2, rfl⟩
                        · rw [if_neg hc] at hf; cases hf

/-- Witness for C9 on the one-variable distribution `wDist`: the key
`("x", some "a")` is selected by both loops and its variable is uncontrolled,
unobserved, and scalar. -/
theorem gelman_rubin_selection_excludes_controlled_witness :
    (∃ t, Elem.tr t ∈ wDist.elems ∧ ∃ nm v, lookupNamed t nm = some v ∧
        v.control = false ∧ v.value.length = 1 ∧
        ((("x", some "a") : VKey), [some (3 : ℚ)]).1 = (v.address, some nm)) ∧
      (∃ t, wDist.elems.getLast? = some (Elem.tr t) ∧ ∃ nm v,
          lookupNamed t nm = some v ∧ v.observed = false ∧ v.value.length = 1 ∧
          (("x", some "a") : VKey) = (v.address, some nm)) := by
  constructor
  · exact gelman_rubin_selection_excludes_controlled.1 1 wDist
      [(("x", some "a"), [some 3])] rfl (("x", some "a"), [some 3]) (by simp)
  · exact gelman_rubin_selection_excludes_controlled.2 wDist
      [("x", some "a")] rfl ("x", some "a") (by simp)

/-! ### Error-propagation lemmas for the Except-monad loops -/

lemma mapM_cons_error {α β : Type} (f : α → Except PyErr β) (a : α) (l : List α) (e : PyErr)
    (h : f a = .error e) : (a :: l).mapM f = .error e := by
  rw [List.mapM_cons, h]
  rfl

lemma mapM_append_error {α β : Type} (f : α → Except PyErr β) (l1 l2 : List α)
    (rs : List β) (e : PyErr) (h1 : l1.mapM f = .ok rs) (h2 : l2.mapM f = .error e) :
    (l1 ++ l2).mapM f = .error e := by
  rw [List.mapM_append, h1]
  show Except.bind (Except.ok rs) _ = _
  show Except.bind (l2.mapM f) _ = _
  rw [h2]
  rfl

lemma foldlM_append_error {σ α : Type} (f : σ → α → Except PyErr σ) (l1 l2 : List α)
    (init acc : σ) (e : PyErr) (h1 : l1.foldlM f init = .ok acc)
    (h2 : l2.foldlM f acc = .error e) : (l1 ++ l2).foldlM f init = .error e := by
  induction l1 generalizing init with
  | nil =>
      rw [List.foldlM_nil] at h1
      cases h1
      simpa using h2
  | cons a t ih =>
      rw [List.cons_append, List.foldlM_cons]
      rw [List.foldlM_cons] at h1
      cases ha : f init a with
      | error e2 =>
          rw [ha] at h1
          simp only [Bind.bind, Except.bind] at h1
          exact Except.noConfusion h1
      | ok s2 =>
          rw [ha] at h1
          simp only [Bind.bind, Except.bind] at h1 ⊢
          exact ih s2 h1

/-- A non-`Trace` first element makes the chain type check fail. -/
lemma stdv_head_nonTrace (L : ℕ) (names : Option (List String)) (d : EDist)
    (h : d.elems.head? = some Elem.nonTrace) :
    singleTraceDistValues L names (.dist d) = .error .typeError := by
  unfold singleTraceDistValues
  dsimp only
  rw [h]

/-- A non-`Trace` first element makes the autocorrelation type check fail. -/
lemma acSelect_head_nonTrace (names : Option (List String)) (nmf : Option ℕ) (d : EDist)
    (h : d.elems.head? = some Elem.nonTrace) :
    acSelect (.dist d) names nmf = .error .typeError := by
  unfold acSelect
  dsimp only
  rw [h]

/-- A non-`Trace` first element makes the per-distribution type check of
`log_prob` fail. -/
lemma logProbOne_nonTrace (res : ℕ) (d : EDist)
    (h : d.elems.head? = some Elem.nonTrace) :
    logProbOne res d = .error .typeError := by
  unfold logProbOne
  rw [h]

/-- C7 counterexample: a first chain that is not an `Empirical` (an object
without a `length` attribute) makes `gelman_rubin` fail at
`trace_dists[0].length` with an `AttributeError`, not the claimed
`TypeError`. -/
theorem gelman_rubin_first_chain_not_dist :
    gelmanRubin [ChainArg.notDist] none [] = .error .attributeError ∧
      PyErr.attributeError ≠ PyErr.typeError :=
  ⟨rfl, by decide⟩

/-- C7 (amended): the type-validation behaviour of the three functions.
`log_prob` fails with `TypeError` when its argument is not a list, or when a
supplied distribution whose predecessors all processed cleanly has a
non-`Trace` first element; `autocorrelations` fails with `TypeError` when its
argument is not an `Empirical` or its first element is not a `Trace`;
`gelman_rubin` fails with `TypeError` when the first chain is an `Empirical`
whose first element is not a `Trace`, or when a later chain — after the
preceding chains processed cleanly — is either not an `Empirical` at all or
is an `Empirical` whose first element is not a `Trace`; but a first chain
that is not an `Empirical` fails with `AttributeError` (reading `.length`)
before any type check runs. -/
theorem type_error_validation :
    (∀ res : ℕ, logProb LPArg.notList res = .error .typeError) ∧
      (∀ (pre : List EDist) (d : EDist) (post : List EDist) (res : ℕ)
          (rs : List (List ℕ × List ℚ)),
          pre.mapM (logProbOne res) = .ok rs → d.elems.head? = some Elem.nonTrace →
          logProb (.list (pre ++ d :: post)) res = .error .typeError) ∧
      (∀ (names : Option (List String)) (lags : List ℕ) (nmf : Option ℕ),
          autocorrelations ACArg.notDist names lags nmf = .error .typeError) ∧
      (∀ (d : EDist) (names : Option (List String)) (lags : List ℕ) (nmf : Option ℕ),
          d.elems.head? = some Elem.nonTrace →
          autocorrelations (ACArg.dist d) names lags nmf = .error .typeError) ∧
      (∀ (d : EDist) (rest : List ChainArg) (names : Option (List String))
          (iters : List ℕ), d.elems.head? = some Elem.nonTrace →
          gelmanRubin (ChainArg.dist d :: rest) names iters = .error .typeError) ∧
      (∀ (d0 : EDist) (mid rest : List ChainArg) (names : Option (List String))
          (iters : List ℕ) (acc : List (VKey × NpArr)),
          (ChainArg.dist d0 :: mid).foldlM (grStep names d0.elems.length) [] = .ok acc →
          gelmanRubin ((ChainArg.dist d0 :: mid) ++ ChainArg.notDist :: rest) names iters
            = .error .typeError) ∧
      (∀ (d0 : EDist) (mid rest : List ChainArg) (d : EDist)
          (names : Option (List String)) (iters : List ℕ) (acc : List (VKey × NpArr)),
          (ChainArg.dist d0 :: mid).foldlM (grStep names d0.elems.length) [] = .ok acc →
          d.elems.head? = some Elem.nonTrace →
          gelmanRubin ((ChainArg.dist d0 :: mid) ++ ChainArg.dist d :: rest) names iters
            = .error .typeError) ∧
      (∀ (rest : List ChainArg) (names : Option (List String)) (iters : List ℕ),
          gelmanRubin (ChainArg.notDist :: rest) names iters = .error .attributeError) := by
  refine ⟨fun res => rfl, ?_, fun names lags nmf => rfl, ?_, ?_, ?_, ?_,
    fun rest names iters => rfl⟩
  · intro pre d post res rs hpre hd
    unfold logProb
    dsimp only
    rw [mapM_append_error (logProbOne res) pre (d :: post) rs .typeError hpre
      (mapM_cons_error _ d post _ (logProbOne_nonTrace res d hd))]
    rfl
  · intro d names lags nmf hd
    unfold autocorrelations
    rw [acSelect_head_nonTrace names nmf d hd]
    rfl
  · intro d rest names iters hd
    have h1 : grStep names d.elems.length [] (ChainArg.dist d) = .error .typeError := by
      unfold grStep
      rw [stdv_head_nonTrace _ _ _ hd]
      rfl
    unfold gelmanRubin
    simp only [List.head?_cons, chainLength, Bind.bind, Except.bind]
    rw [List.foldlM_cons, h1]
    rfl
  · intro d0 mid rest names iters acc hpre
    have h2 : (ChainArg.notDist :: rest).foldlM (grStep names d0.elems.length) acc
        = .error .typeError := by
      rw [List.foldlM_cons]
      rfl
    unfold gelmanRubin
    rw [List.cons_append]
    simp only [List.head?_cons, chainLength, Bind.bind, Except.bind]
    rw [List.foldlM_cons]
    rw [List.foldlM_cons] at hpre
    cases hstep : grStep names d0.elems.length [] (ChainArg.dist d0) with
    | error e =>
        rw [hstep] at hpre
        simp only [Bind.bind, Except.bind] at hpre
        exact Except.noConfusion hpre
    | ok s =>
        rw [hstep] at hpre
        simp only [Bind.bind, Except.bind] at hpre ⊢
        rw [foldlM_append_error _ mid (ChainArg.notDist :: rest) s acc .typeError hpre h2]
  · intro d0 mid rest d names iters acc hpre hd
    have h2 : (ChainArg.dist d :: rest).foldlM (grStep names d0.elems.length) acc
        = .error .typeError := by
      rw [List.foldlM_cons]
      have hbad : grStep names d0.elems.length acc (ChainArg.dist d)
          = .error .typeError := by
        unfold grStep
        rw [stdv_head_nonTrace _ _ _ hd]
        rfl
      rw [hbad]
      rfl
    unfold gelmanRubin
    rw [List.cons_append]
    simp only [List.head?_cons, chainLength, Bind.bind, Except.bind]
    rw [List.foldlM_cons]
    rw [List.foldlM_cons] at hpre
    cases hstep : grStep names d0.elems.length [] (ChainArg.dist d0) with
    | error e =>
        rw [hstep] at hpre
        simp only [Bind.bind, Except.bind] at hpre
        exact Except.noConfusion hpre
    | ok s =>
        rw [hstep] at hpre
        simp only [Bind.bind, Except.bind] at hpre ⊢
        rw [foldlM_append_error _ mid (ChainArg.dist d :: rest) s acc .typeError hpre h2]

/-- Witness for C7's conjuncts at concrete arguments. -/
theorem type_error_validation_witness :
    logProb LPArg.notList 0 = .error .typeError ∧
      logProb (LPArg.list ([] ++ ⟨[Elem.nonTrace]⟩ :: [])) 0 = .error .typeError ∧
      autocorrelations ACArg.notDist none [] none = .error .typeError ∧
      autocorrelations (ACArg.dist ⟨[Elem.nonTrace]⟩) none [] none = .error .typeError ∧
      gelmanRubin (ChainArg.dist ⟨[Elem.nonTrace]⟩ :: []) none [] = .error .typeError ∧
      gelmanRubin ((ChainArg.dist wDist :: []) ++ ChainArg.notDist :: []) none []
        = .error .typeError ∧
      gelmanRubin ((ChainArg.dist wDist :: []) ++ ChainArg.dist ⟨[Elem.nonTrace]⟩ :: [])
        none [] = .error .typeError ∧
      gelmanRubin (ChainArg.notDist :: []) none [] = .error .attributeError := by
  refine ⟨type_error_validation.1 0, ?_, type_error_validation.2.2.1 none [] none, ?_, ?_,
    ?_, ?_, type_error_validation.2.2.2.2.2.2.2 [] none []⟩
  · exact type_error_validation.2.1 [] ⟨[Elem.nonTrace]⟩ [] 0 [] rfl rfl
  · exact type_error_validation.2.2.2.1 ⟨[Elem.nonTrace]⟩ none [] none rfl
  · exact type_error_validation.2.2.2.2.1 ⟨[Elem.nonTrace]⟩ [] none [] rfl
  · exact type_error_validation.2.2.2.2.2.1 wDist [] [] none []
      [(("x", some "a"), NpArr.oneD [some 3])] rfl
  · exact type_error_validation.2.2.2.2.2.2.1 wDist [] [] ⟨[Elem.nonTrace]⟩ none []
      [(("x", some "a"), NpArr.oneD [some 3])] rfl rfl

/-! ### Invariants of the selection dict: value lengths and key uniqueness -/

lemma mem_alSet {β : Type} (d : List (VKey × β)) (k : VKey) (v : β) (q : VKey × β)
    (h : q ∈ alSet d k v) : q = (k, v) ∨ q ∈ d := by
  induction d with
  | nil => simpa [alSet] using h
  | cons p rest ih =>
      rw [alSet] at h
      by_cases hp : p.1 = k
      · rw [if_pos hp] at h
        rcases List.mem_cons.mp h with h1 | h1
        · exact Or.inl h1
        · exact Or.inr (List.mem_cons_of_mem _ h1)
      · rw [if_neg hp] at h
        rcases List.mem_cons.mp h with h1 | h1
        · exact Or.inr (h1 ▸ List.mem_cons_self _ _)
        · rcases ih h1 with h2 | h2
          · exact Or.inl h2
          · exact Or.inr (List.mem_cons_of_mem _ h2)

lemma alGet_mem {β : Type} (d : List (VKey × β)) (k : VKey) (v : β)
    (h : alGet d k = some v) : (k, v) ∈ d := by
  induction d with
  | nil => simp [alGet] at h
  | cons p rest ih =>
      rw [alGet] at h
      by_cases hp : p.1 = k
      · rw [if_pos hp] at h
        obtain ⟨pk, pv⟩ := p
        cases h
        cases hp
        exact List.mem_cons_self _ _
      · rw [if_neg hp] at h
        exact List.mem_cons_of_mem _ (ih h)

lemma values_procName (L i : ℕ) (t : Trace) (nm : String)
    (d : List (VKey × List (Option ℚ))) (hP : ∀ p ∈ d, p.2.length = L) :
    ∀ q ∈ procName L i t d nm, q.2.length = L := by
  intro q hq
  unfold procName at hq
  cases hl : lookupNamed t nm with
  | none => rw [hl] at hq; exact hP q hq
  | some v =>
      rw [hl] at hq
      dsimp only at hq
      by_cases hc : v.control = false ∧ v.value.length = 1
      · rw [if_pos hc] at hq
        rcases mem_alSet _ _ _ _ hq with h1 | h1
        · rw [h1]
          dsimp only
          rw [List.length_set]
          cases halg : alGet d (v.address, some nm) with
          | none => simp
          | some w => simpa using hP _ (alGet_mem _ _ _ halg)
        · exact hP q h1
      · rw [if_neg hc] at hq
        exact hP q hq

lemma values_foldl_procName (L i : ℕ) (t : Trace) (nl : List String)
    (d : List (VKey × List (Option ℚ))) (hP : ∀ p ∈ d, p.2.length = L) :
    ∀ q ∈ nl.foldl (procName L i t) d, q.2.length = L := by
  induction nl generalizing d with
  | nil => exact hP
  | cons nm nl ih =>
      rw [List.foldl_cons]
      exact ih _ (values_procName L i t nm d hP)

lemma values_stdvLoop (names : Option (List String)) (L : ℕ) (traces : List Trace)
    (d : List (VKey × List (Option ℚ))) (i : ℕ) (hP : ∀ p ∈ d, p.2.length = L) :
    ∀ q ∈ stdvLoop names L d i traces, q.2.length = L := by
  induction traces generalizing d i with
  | nil => exact hP
  | cons t rest ih =>
      rw [stdvLoop]
      refine ih _ _ fun q hq => ?_
      unfold procTrace at hq
      exact values_foldl_procName L i t _ d hP q hq

lemma keys_alSet {β : Type} (d : List (VKey × β)) (k : VKey) (v : β) :
    (alSet d k v).map Prod.fst =
      if k ∈ d.map Prod.fst then d.map Prod.fst else d.map Prod.fst ++ [k] := by
  induction d with
  | nil => simp [alSet]
  | cons p rest ih =>
      rw [alSet]
      by_cases hp : p.1 = k
      · rw [if_pos hp, List.map_cons, List.map_cons,
          if_pos (by rw [hp] at *; exact List.mem_cons_self _ _), hp]
      · rw [if_neg hp, List.map_cons, List.map_cons, ih]
        by_cases hk : k ∈ rest.map Prod.fst
        · rw [if_pos hk, if_pos (List.mem_cons_of_mem _ hk)]
        · rw [if_neg hk,
            if_neg (by
              intro hmem
              rcases List.mem_cons.mp hmem with h1 | h1
              · exact hp h1.symm
              · exact hk h1),
            List.cons_append]

lemma nodup_keys_alSet {β : Type} (d : List (VKey × β)) (k : VKey) (v : β)
    (h : (d.map Prod.fst).Nodup) : ((alSet d k v).map Prod.fst).Nodup := by
  rw [keys_alSet]
  by_cases hk : k ∈ d.map Prod.fst
  · rw [if_pos hk]; exact h
  · rw [if_neg hk, List.nodup_append]
    refine ⟨h, List.nodup_singleton k, ?_⟩
    intro a ha hb
    rw [List.mem_singleton] at hb
    exact hk (hb ▸ ha)

lemma nodup_keys_procName (L i : ℕ) (t : Trace) (nm : String)
    (d : List (VKey × List (Option ℚ))) (h : (d.map Prod.fst).Nodup) :
    ((procName L i t d nm).map Prod.fst).Nodup := by
  unfold procName
  cases lookupNamed t nm with
  | none => exact h
  | some v =>
      dsimp only
      by_cases hc : v.control = false ∧ v.value.length = 1
      · rw [if_pos hc]
        exact nodup_keys_alSet _ _ _ h
      · rw [if_neg hc]
        exact h

lemma nodup_keys_foldl_procName (L i : ℕ) (t : Trace) (nl : List String)
    (d : List (VKey × List (Option ℚ))) (h : (d.map Prod.fst).Nodup) :
    ((nl.foldl (procName L i t) d).map Prod.fst).Nodup := by
  induction nl generalizing d with
  | nil => exact h
  | cons nm nl ih =>
      rw [List.foldl_cons]
      exact ih _ (nodup_keys_procName L i t nm d h)

lemma nodup_keys_stdvLoop (names : Option (List String)) (L : ℕ) (traces : List Trace)
    (d : List (VKey × List (Option ℚ))) (i : ℕ) (h : (d.map Prod.fst).Nodup) :
    ((stdvLoop names L d i traces).map Prod.fst).Nodup := by
  induction traces generalizing d i with
  | nil => exact h
  | cons t rest ih =>
      rw [stdvLoop]
      refine ih _ _ ?_
      unfold procTrace
      exact nodup_keys_foldl_procName L i t _ d h

/-- Structure of a successful `single_trace_dist_values` call. -/
lemma stdv_ok_shape (L : ℕ) (names : Option (List String)) (c : ChainArg)
    (vv : List (VKey × List (Option ℚ))) (h : singleTraceDistValues L names c = .ok vv) :
    ∃ d traces, c = ChainArg.dist d ∧ extractTraces d.elems = .ok traces ∧
      vv = sortKeysDesc (stdvLoop names L [] 0 traces) := by
  cases c with
  | notDist => cases h
  | dist d =>
      unfold singleTraceDistValues at h
      dsimp only at h
      cases hd : d.elems.head? with
      | none => rw [hd] at h; cases h
      | some e =>
          rw [hd] at h
          cases e with
          | nonTrace => cases h
          | tr t0 =>
              by_cases hL : d.elems.length ≠ L
              · rw [if_pos hL] at h; cases h
              · rw [if_neg hL] at h
                simp only [Bind.bind, Except.bind] at h
                cases hex : extractTraces d.elems with
                | error err => rw [hex] at h; cases h
                | ok traces =>
                    rw [hex] at h
                    cases h
                    exact ⟨d, traces, rfl, hex, rfl⟩

lemma values_of_stdv (L : ℕ) (names : Option (List String)) (c : ChainArg)
    (vv : List (VKey × List (Option ℚ))) (h : singleTraceDistValues L names c = .ok vv) :
    ∀ p ∈ vv, p.2.length = L := by
  obtain ⟨d, traces, rfl, hex, rfl⟩ := stdv_ok_shape L names c vv h
  intro p hp
  exact values_stdvLoop names L traces [] 0 (by simp) p
    ((perm_sortKeysDesc _).mem_iff.mp hp)

lemma nodup_keys_of_stdv (L : ℕ) (names : Option (List String)) (c : ChainArg)
    (vv : List (VKey × List (Option ℚ))) (h : singleTraceDistValues L names c = .ok vv) :
    (vv.map Prod.fst).Nodup := by
  obtain ⟨d, traces, rfl, hex, rfl⟩ := stdv_ok_shape L names c vv h
  have hperm := (perm_sortKeysDesc (stdvLoop names L [] 0 traces)).map Prod.fst
  exact hperm.nodup_iff.mpr (nodup_keys_stdvLoop names L traces [] 0 (by simp))

lemma alGet_append_right {β : Type} (l1 l2 : List (VKey × β)) (k : VKey)
    (h : alGet l1 k = none) : alGet (l1 ++ l2) k = alGet l2 k := by
  induction l1 with
  | nil => rfl
  | cons p rest ih =>
      rw [alGet] at h
      by_cases hp : p.1 = k
      · rw [if_pos hp] at h; cases h
      · rw [if_neg hp] at h
        rw [List.cons_append, alGet, if_neg hp]
        exact ih h

lemma alGet_singleton_ne {β : Type} (k0 k : VKey) (v : β) (h : k0 ≠ k) :
    alGet [(k0, v)] k = none := by
  rw [alGet, if_neg h]
  rfl

/-- Merging a dict of fresh, pairwise-distinct keys just appends the values
as 1-dimensional arrays. -/
lemma merge_dicts_disjoint (acc : List (VKey × NpArr)) (vv : List (VKey × List (Option ℚ)))
    (hnd : (vv.map Prod.fst).Nodup) (hdisj : ∀ p ∈ vv, alGet acc p.1 = none) :
    merge_dicts acc vv = acc ++ vv.map fun kv => (kv.1, NpArr.oneD kv.2) := by
  induction vv generalizing acc with
  | nil => simp [merge_dicts]
  | cons kv rest ih =>
      have hnd2 : (rest.map Prod.fst).Nodup := (List.nodup_cons.mp (by simpa using hnd)).2
      have hk1 : kv.1 ∉ rest.map Prod.fst := (List.nodup_cons.mp (by simpa using hnd)).1
      unfold merge_dicts
      rw [List.foldl_cons, hdisj kv (List.mem_cons_self _ _)]
      dsimp only
      have hdisj2 : ∀ p ∈ rest, alGet (acc ++ [(kv.1, NpArr.oneD kv.2)]) p.1 = none := by
        intro p hp
        rw [alGet_append_right _ _ _ (hdisj p (List.mem_cons_of_mem _ hp))]
        refine alGet_singleton_ne _ _ _ fun he => ?_
        exact hk1 (he ▸ List.mem_map_of_mem Prod.fst hp)
      rw [show List.foldl _ (acc ++ [(kv.1, NpArr.oneD kv.2)]) rest
          = merge_dicts (acc ++ [(kv.1, NpArr.oneD kv.2)]) rest from rfl]
      rw [ih _ hnd2 hdisj2, List.map_cons, List.append_assoc, List.singleton_append]

/-- C4 counterexample: with zero chains `gelman_rubin` fails at
`trace_dists[0]` with an `IndexError`, not the claimed `ValueError`. -/
theorem gelman_rubin_zero_chains :
    gelmanRubin [] none [] = .error .indexError ∧ PyErr.indexError ≠ PyErr.valueError :=
  ⟨rfl, by decide⟩

/-- C4 (amended): with zero chains `gelman_rubin` fails with an `IndexError`
(indexing `trace_dists[0]`); with exactly one chain whose variable selection
is nonempty it fails with a `ValueError` (unpacking `np.where` of a
1-dimensional array); with exactly one chain and an empty selection it
completes normally. The original claim that every input with fewer than two
chains fails with a `ValueError` therefore does not hold. -/
theorem gelman_rubin_fewer_than_two_chains (names : Option (List String))
    (iters : List ℕ) :
    gelmanRubin [] names iters = .error .indexError ∧
      (∀ (d : EDist) (vv : List (VKey × List (Option ℚ))),
          singleTraceDistValues d.elems.length names (.dist d) = .ok vv → vv ≠ [] →
          gelmanRubin [ChainArg.dist d] names iters = .error .valueError) ∧
      (∀ d : EDist,
          singleTraceDistValues d.elems.length names (.dist d) = .ok [] →
          gelmanRubin [ChainArg.dist d] names iters = .ok (iters, [])) := by
  refine ⟨rfl, ?_, ?_⟩
  · intro d vv hok hne
    obtain ⟨kv, rest, rfl⟩ : ∃ kv rest, vv = kv :: rest := by
      cases vv with
      | nil => exact absurd rfl hne
      | cons kv rest => exact ⟨kv, rest, rfl⟩
    have hnodup := nodup_keys_of_stdv _ names _ _ hok
    have hlen := values_of_stdv _ names _ _ hok
    have hstep : grStep names d.elems.length [] (ChainArg.dist d)
        = .ok (merge_dicts [] (kv :: rest)) := by
      unfold grStep
      rw [hok]
      rfl
    unfold gelmanRubin
    simp only [List.head?_cons, chainLength, Bind.bind, Except.bind]
    rw [List.foldlM_cons, hstep]
    simp only [Bind.bind, Except.bind, List.foldlM_nil, Pure.pure, Except.pure]
    rw [merge_dicts_disjoint [] (kv :: rest) hnodup (fun p _ => rfl), List.nil_append]
    have hfilter : ((kv :: rest).map fun p => (p.1, NpArr.oneD p.2)).filter
        (fun p => npSize p.2 == d.elems.length * [ChainArg.dist d].length)
        = (kv :: rest).map fun p => (p.1, NpArr.oneD p.2) := by
      refine List.filter_eq_self.mpr fun q hq => ?_
      obtain ⟨p, hp, rfl⟩ := List.mem_map.mp hq
      have : npSize (NpArr.oneD p.2) = d.elems.length := hlen p hp
      simp [this]
    rw [hfilter, List.map_cons,
      mapM_cons_error grTrimFillStep (kv.1, NpArr.oneD kv.2) _ PyErr.valueError rfl]
  · intro d hok
    have hstep : grStep names d.elems.length [] (ChainArg.dist d) = .ok [] := by
      unfold grStep
      rw [hok]
      rfl
    unfold gelmanRubin
    simp only [List.head?_cons, chainLength, Bind.bind, Except.bind]
    rw [List.foldlM_cons, hstep]
    rfl

/-- Witness for C4 at the one-variable distribution `wDist` (nonempty
selection) and a one-variable observed-only distribution whose uncontrolled
variable still qualifies, paired with `wDistObs`-free empty-selection case
via explicit `names = some []`. -/
theorem gelman_rubin_fewer_than_two_chains_witness :
    gelmanRubin [] none [] = .error .indexError ∧
      gelmanRubin [ChainArg.dist wDist] none [] = .error .valueError ∧
      gelmanRubin [ChainArg.dist wDist] (some []) [] = .ok ([], []) := by
  refine ⟨(gelman_rubin_fewer_than_two_chains none []).1, ?_, ?_⟩
  · exact (gelman_rubin_fewer_than_two_chains none []).2.1 wDist
      [(("x", some "a"), [some 3])] rfl (by simp)
  · exact (gelman_rubin_fewer_than_two_chains (some []) []).2.2 wDist rfl

end Pyprob
